import Mathlib

/-!
Verification of `src/analysis/matrix_factorization.py` (DP matrix-factorization
gradient-descent optimizer).

The Python module is a pipeline of pure numeric functions over dense square
matrices.  We embed it over `Matrix (Fin n) (Fin n) ℝ` (the code forces
float64; we model the reals exactly).  Numeric backend routines that are not
part of the repository (`jnp.linalg.eigh`, `jax.value_and_grad`,
`jnp.linalg.cholesky` composed with `jnp.isnan`, and the wall clock
`time.time`) are modelled as explicit parameters of the embedded functions;
the recursive Armijo line search, which has no termination guarantee in the
source, is embedded with an explicit fuel argument returning `Option`.

A small IEEE-754-style scalar type `F` is used where a claim is specifically
about NaN/Inf behaviour of the Cholesky check.
-/

namespace DPMatFac

open Matrix

/-- Square real matrices of size `k`, the carrier type of every array in the
Python module (float64 arrays, modelled exactly over `ℝ`). -/
abbrev Mat (k : ℕ) : Type := Matrix (Fin k) (Fin k) ℝ

/-- Embedding of `hermitian_adjoint(matrix) = jnp.conjugate(matrix).T`:
entrywise conjugation followed by transpose. -/
def hermitian_adjoint {k : ℕ} (matrix : Mat k) : Mat k :=
  (matrix.map star)ᵀ

/-- Embedding of `jnp.max(jnp.diag(x))`: the largest diagonal entry of a
(nonempty) square matrix. -/
noncomputable def max_diag {k : ℕ} (x : Mat (k + 1)) : ℝ :=
  Finset.univ.sup' Finset.univ_nonempty fun i => x i i

/-- Embedding of `compute_loss_in_x(target, x)`:
`m = hermitian_adjoint(target) @ target @ jnp.linalg.inv(x)`,
`raw_trace = jnp.trace(m)`, `max_diag = jnp.max(jnp.diag(x))`,
returning `raw_trace * max_diag`. -/
noncomputable def compute_loss_in_x {k : ℕ} (target x : Mat (k + 1)) : ℝ :=
  let m := hermitian_adjoint target * target * x⁻¹
  let raw_trace := Matrix.trace m
  raw_trace * max_diag x

/-- Embedding of `diagonalize_and_take_jax_matrix_sqrt(matrix, min_eval)`.
The backend call `jnp.linalg.eigh(matrix)` is a numeric routine outside the
repository, so its output `(evals, evecs)` is taken as input here.  The
source is dtype-generic: for a real array `evecs` is real, for a complex
Hermitian array `evecs` is complex, while `eigh` returns real eigenvalues in
both cases, so the scalar type `𝕜` carries an `Algebra ℝ 𝕜` promotion (the
dtype promotion of `jnp.diag(eval_sqrt)` into the dtype of `evecs`).  The
body computes `eval_sqrt = jnp.maximum(evals, min_eval) ** 0.5` and
`sqrt = evecs @ jnp.diag(eval_sqrt) @ evecs.T` exactly as the source does —
note the plain transpose `.T`, not the conjugate transpose. -/
noncomputable def diagonalize_and_take_jax_matrix_sqrt {𝕜 : Type} [CommRing 𝕜]
    [Algebra ℝ 𝕜] {k : ℕ} (evals : Fin k → ℝ) (evecs : Matrix (Fin k) (Fin k) 𝕜)
    (min_eval : ℝ) : Matrix (Fin k) (Fin k) 𝕜 :=
  let eval_sqrt := fun i => Real.sqrt (max (evals i) min_eval)
  evecs * Matrix.diagonal (fun i => algebraMap ℝ 𝕜 (eval_sqrt i)) * evecsᵀ

/-- Helper: at the real instantiation the dtype promotion is the identity,
recovering the plain real form of the square-root reconstruction. -/
theorem diagonalize_real_eq {k : ℕ} (evals : Fin k → ℝ)
    (evecs : Matrix (Fin k) (Fin k) ℝ) (min_eval : ℝ) :
    diagonalize_and_take_jax_matrix_sqrt evals evecs min_eval =
      evecs * Matrix.diagonal (fun i => Real.sqrt (max (evals i) min_eval)) * evecsᵀ :=
  rfl

section LossClaims

/-- Claim C1: the loss function returns
`trace(conjugate(target)^T @ target @ inverse(x))` multiplied by the maximum
diagonal entry of `x`, for every square `target` and invertible `x` of the
same shape.  The spec-side formula is written with Mathlib's conjugate
transpose `ᴴ` and with the maximum characterised as the greatest element of
the set of diagonal entries of `x`. -/
theorem compute_loss_in_x_matches_spec {k : ℕ} (target x : Mat (k + 1))
    (hinv : IsUnit x.det) :
    ∃ m : ℝ, IsGreatest {t : ℝ | ∃ i, t = x i i} m ∧
      compute_loss_in_x target x = Matrix.trace (targetᴴ * target * x⁻¹) * m := by
  refine ⟨max_diag x, ⟨?_, ?_⟩, ?_⟩
  · obtain ⟨i, _, hi⟩ := Finset.exists_mem_eq_sup' (Finset.univ_nonempty)
      (fun i => x i i)
    exact ⟨i, hi⟩
  · rintro t ⟨i, rfl⟩
    exact Finset.le_sup' (fun j => x j j) (Finset.mem_univ i)
  · have hadj : hermitian_adjoint target = targetᴴ := by
      ext i j
      simp [hermitian_adjoint, Matrix.conjTranspose_apply, Matrix.map_apply,
        Matrix.transpose_apply]
    simp [compute_loss_in_x, hadj]

/-- Witness for C1 at `target = x = 1` (the 1×1 identity matrix). -/
theorem compute_loss_in_x_matches_spec_witness :
    IsUnit (1 : Mat 1).det ∧
      ∃ m : ℝ, IsGreatest {t : ℝ | ∃ i, t = (1 : Mat 1) i i} m ∧
        compute_loss_in_x (1 : Mat 1) 1 =
          Matrix.trace ((1 : Mat 1)ᴴ * 1 * (1 : Mat 1)⁻¹) * m :=
  ⟨by simp, compute_loss_in_x_matches_spec 1 1 (by simp)⟩

end LossClaims

section SqrtClaims

/-- Claim C2 (amended: `M` real symmetric, not complex Hermitian — see the
counterexample `matrix_sqrt_complex_counterexample` for the complex case):
given the eigendecomposition `M = V diag(λ) Vᵀ` of a real symmetric `M`
produced by the backend (orthonormal eigenvectors), the matrix square root
routine clamps each eigenvalue at the floor and reconstructs
`S = V diag(sqrt(max λ floor)) Vᵀ`.  For any nonnegative floor the result
squares to the clamped reconstruction (the clamped eigenvalues are
nonnegative, so no square root of a negative number occurs even when `M`
carries small negative eigenvalues); in particular, with the default floor
`0` and a positive-semi-definite spectrum, `S * S = M` exactly. -/
theorem matrix_sqrt_squares_back {k : ℕ} (evals : Fin k → ℝ)
    (evecs M : Matrix (Fin k) (Fin k) ℝ) (min_eval : ℝ)
    (horth : evecsᵀ * evecs = 1)
    (hM : M = evecs * Matrix.diagonal evals * evecsᵀ)
    (hfloor : 0 ≤ min_eval) :
    (diagonalize_and_take_jax_matrix_sqrt evals evecs min_eval *
        diagonalize_and_take_jax_matrix_sqrt evals evecs min_eval =
      evecs * Matrix.diagonal (fun i => max (evals i) min_eval) * evecsᵀ) ∧
    (min_eval = 0 → (∀ i, 0 ≤ evals i) →
      diagonalize_and_take_jax_matrix_sqrt evals evecs min_eval *
        diagonalize_and_take_jax_matrix_sqrt evals evecs min_eval = M) := by
  have hmain :
      diagonalize_and_take_jax_matrix_sqrt evals evecs min_eval *
          diagonalize_and_take_jax_matrix_sqrt evals evecs min_eval =
        evecs * Matrix.diagonal (fun i => max (evals i) min_eval) * evecsᵀ := by
    simp only [diagonalize_real_eq]
    have hDD :
        Matrix.diagonal (fun i => Real.sqrt (max (evals i) min_eval)) *
            Matrix.diagonal (fun i => Real.sqrt (max (evals i) min_eval)) =
          Matrix.diagonal (fun i => max (evals i) min_eval) := by
      rw [Matrix.diagonal_mul_diagonal]
      have hfun : (fun i => Real.sqrt (max (evals i) min_eval) *
            Real.sqrt (max (evals i) min_eval)) =
          fun i => max (evals i) min_eval :=
        funext fun i => Real.mul_self_sqrt (le_trans hfloor (le_max_right _ _))
      rw [hfun]
    calc
      evecs * Matrix.diagonal (fun i => Real.sqrt (max (evals i) min_eval)) * evecsᵀ *
          (evecs * Matrix.diagonal (fun i => Real.sqrt (max (evals i) min_eval)) * evecsᵀ)
        = evecs * Matrix.diagonal (fun i => Real.sqrt (max (evals i) min_eval)) *
            (evecsᵀ * evecs) *
            (Matrix.diagonal (fun i => Real.sqrt (max (evals i) min_eval)) * evecsᵀ) := by
          noncomm_ring
      _ = evecs *
            (Matrix.diagonal (fun i => Real.sqrt (max (evals i) min_eval)) *
              Matrix.diagonal (fun i => Real.sqrt (max (evals i) min_eval))) * evecsᵀ := by
          rw [horth]
          noncomm_ring
      _ = evecs * Matrix.diagonal (fun i => max (evals i) min_eval) * evecsᵀ := by
          rw [hDD]
  refine ⟨hmain, fun hzero hpos => ?_⟩
  rw [hmain, hM]
  have hfun : (fun i => max (evals i) min_eval) = evals := by
    funext i
    rw [hzero]
    exact max_eq_left (hpos i)
  rw [hfun]

/-- Witness for C2: the 1×1 matrix `M = [[4]]` with eigendecomposition
`V = 1`, `λ = (4)`, floor `0`. -/
theorem matrix_sqrt_squares_back_witness :
    ((1 : Matrix (Fin 1) (Fin 1) ℝ)ᵀ * 1 = 1) ∧
    (Matrix.diagonal (fun _ : Fin 1 => (4 : ℝ)) =
      1 * Matrix.diagonal (fun _ : Fin 1 => (4 : ℝ)) * (1 : Matrix (Fin 1) (Fin 1) ℝ)ᵀ) ∧
    ((0 : ℝ) ≤ 0) ∧
    (diagonalize_and_take_jax_matrix_sqrt (fun _ : Fin 1 => (4 : ℝ)) 1 0 *
        diagonalize_and_take_jax_matrix_sqrt (fun _ : Fin 1 => (4 : ℝ)) 1 0 =
      Matrix.diagonal (fun _ : Fin 1 => (4 : ℝ))) := by
  have h1 : (1 : Matrix (Fin 1) (Fin 1) ℝ)ᵀ * 1 = 1 := by simp
  have h2 : Matrix.diagonal (fun _ : Fin 1 => (4 : ℝ)) =
      1 * Matrix.diagonal (fun _ : Fin 1 => (4 : ℝ)) * (1 : Matrix (Fin 1) (Fin 1) ℝ)ᵀ := by
    simp
  exact ⟨h1, h2, le_refl 0,
    (matrix_sqrt_squares_back (fun _ : Fin 1 => (4 : ℝ)) 1
        (Matrix.diagonal fun _ : Fin 1 => (4 : ℝ)) 0 h1 h2 (le_refl 0)).2 rfl
      (fun _ => by norm_num)⟩

/-- Eigenvector matrix of the complex counterexample for C2: its columns
`(3/5, 4i/5)` and `(4/5, -3i/5)` are orthonormal under the Hermitian inner
product, so this is a legitimate `jnp.linalg.eigh` output. -/
noncomputable def cexEvecs : Matrix (Fin 2) (Fin 2) ℂ :=
  !![3/5, 4/5; 4/5 * Complex.I, -(3/5) * Complex.I]

/-- Eigenvalues of the complex counterexample for C2 (real, as `eigh`
returns them, and strictly positive). -/
def cexEvals : Fin 2 → ℝ := ![1, 4]

/-- The complex Hermitian positive-definite matrix
`cexEvecs @ diag(1, 4) @ cexEvecsᴴ` of the counterexample for C2. -/
noncomputable def cexM : Matrix (Fin 2) (Fin 2) ℂ :=
  !![73/25, 36/25 * Complex.I; -(36/25) * Complex.I, 52/25]

/-- Counterexample for C2: the claim quantifies over complex Hermitian `M` as
well, but the source reconstructs with the plain transpose `evecs.T`, which
is not the inverse of a genuinely complex unitary eigenvector matrix.  `cexM`
is Hermitian and positive-definite with orthonormal eigenvectors `cexEvecs`
and eigenvalues `(1, 4)`, yet the square of the routine's output differs
from `cexM` (the `(0,0)` entries are `1537/625` and `1825/625`). -/
theorem matrix_sqrt_complex_counterexample :
    (cexEvecsᴴ * cexEvecs = 1) ∧
    (cexM = cexEvecs * Matrix.diagonal (fun i => algebraMap ℝ ℂ (cexEvals i)) *
      cexEvecsᴴ) ∧
    (cexMᴴ = cexM) ∧
    (∀ i, 0 ≤ cexEvals i) ∧
    diagonalize_and_take_jax_matrix_sqrt cexEvals cexEvecs 0 *
        diagonalize_and_take_jax_matrix_sqrt cexEvals cexEvecs 0 ≠ cexM := by
  refine ⟨?_, ?_, ?_, ?_, ?_⟩
  · ext i j
    fin_cases i <;> fin_cases j <;>
      simp [cexEvecs, Matrix.mul_apply, Fin.sum_univ_two, Matrix.conjTranspose_apply,
        Matrix.one_apply, map_div₀, RingHom.map_mul, map_neg, map_ofNat,
        Complex.conj_I] <;>
      ring_nf <;>
      simp [Complex.I_sq] <;>
      norm_num
  · have hD : Matrix.diagonal (fun i => algebraMap ℝ ℂ (cexEvals i)) =
        !![1, 0; 0, 4] := by
      ext i j
      fin_cases i <;> fin_cases j <;> simp [cexEvals, Matrix.diagonal_apply]
    rw [hD]
    ext i j
    fin_cases i <;> fin_cases j <;>
      simp [cexEvecs, cexM, Matrix.mul_apply, Fin.sum_univ_two,
        Matrix.conjTranspose_apply, map_div₀, RingHom.map_mul, map_neg, map_ofNat,
        Complex.conj_I] <;>
      ring_nf <;>
      simp [Complex.I_sq] <;>
      ring_nf <;>
      norm_num
  · ext i j
    fin_cases i <;> fin_cases j <;>
      simp [cexM, Matrix.conjTranspose_apply, map_div₀, RingHom.map_mul, map_neg,
        map_ofNat, Complex.conj_I]
  · intro i
    fin_cases i <;> norm_num [cexEvals]
  · have h4 : Real.sqrt 4 = 2 := by
      rw [show (4 : ℝ) = 2 ^ 2 by norm_num]
      exact Real.sqrt_sq (by norm_num)
    have hD : Matrix.diagonal
        (fun i => algebraMap ℝ ℂ (Real.sqrt (max (cexEvals i) 0))) =
        !![1, 0; 0, 2] := by
      ext i j
      fin_cases i <;> fin_cases j <;> simp [cexEvals, Matrix.diagonal_apply, h4]
    have hVT : cexEvecsᵀ = !![3/5, 4/5 * Complex.I; 4/5, -(3/5) * Complex.I] := by
      ext i j
      fin_cases i <;> fin_cases j <;> simp [cexEvecs, Matrix.transpose_apply]
    have hS : diagonalize_and_take_jax_matrix_sqrt cexEvals cexEvecs 0 =
        !![41/25, -(12/25) * Complex.I; -(12/25) * Complex.I, -(34/25)] := by
      show cexEvecs *
          Matrix.diagonal (fun i => algebraMap ℝ ℂ (Real.sqrt (max (cexEvals i) 0))) *
          cexEvecsᵀ = _
      rw [hD, hVT]
      ext i j
      fin_cases i <;> fin_cases j <;>
        simp [cexEvecs, Matrix.mul_apply, Fin.sum_univ_two] <;>
        (try ring_nf) <;> (try simp [Complex.I_sq]) <;> (try norm_num) <;>
        (try ring_nf)
    intro hcontra
    rw [hS] at hcontra
    have h00 := congrFun (congrFun hcontra 0) 0
    simp [Matrix.mul_apply, Fin.sum_univ_two, cexM] at h00
    ring_nf at h00
    simp [Complex.I_sq] at h00
    norm_num at h00

end SqrtClaims

/-- The matrix square root actually used by
`compute_normalized_x_from_vector`: the caller-supplied `precomputed_sqrt`
when present (trusted without validation, as in the source), otherwise the
eigendecomposition-based square root of
`diag_sqrt @ (hermitian_adjoint(A) @ A) @ diag_sqrt`, with the backend call
`jnp.linalg.eigh` passed in as the parameter `eigh`. -/
noncomputable def effective_matrix_sqrt {k : ℕ} (matrix_to_factorize : Mat (k + 1))
    (v : Fin (k + 1) → ℝ) (precomputed_sqrt : Option (Mat (k + 1)))
    (eigh : Mat (k + 1) → (Fin (k + 1) → ℝ) × Mat (k + 1)) : Mat (k + 1) :=
  match precomputed_sqrt with
  | none =>
      let diag_sqrt := Matrix.diagonal fun i => Real.sqrt (v i)
      let target := hermitian_adjoint matrix_to_factorize * matrix_to_factorize
      let p := eigh (diag_sqrt * target * diag_sqrt)
      diagonalize_and_take_jax_matrix_sqrt p.1 p.2 0
  | some s => s

/-- Embedding of `compute_normalized_x_from_vector(matrix_to_factorize, v,
precomputed_sqrt)`: `v ** 0.5` and `v ** -(0.5)` become `Real.sqrt` and its
inverse, `x = inv_diag_sqrt @ matrix_sqrt @ inv_diag_sqrt`, and the final
rescaling multiplies `x` on both sides by `jnp.diag(jnp.diag(x) ** -0.5)`. -/
noncomputable def compute_normalized_x_from_vector {k : ℕ}
    (matrix_to_factorize : Mat (k + 1)) (v : Fin (k + 1) → ℝ)
    (precomputed_sqrt : Option (Mat (k + 1)))
    (eigh : Mat (k + 1) → (Fin (k + 1) → ℝ) × Mat (k + 1)) : Mat (k + 1) :=
  let inv_diag_sqrt := Matrix.diagonal fun i => (Real.sqrt (v i))⁻¹
  let matrix_sqrt := effective_matrix_sqrt matrix_to_factorize v precomputed_sqrt eigh
  let x := inv_diag_sqrt * matrix_sqrt * inv_diag_sqrt
  let x_sqrt_diag := fun i => x i i
  Matrix.diagonal (fun i => (Real.sqrt (x_sqrt_diag i))⁻¹) * x *
    Matrix.diagonal (fun i => (Real.sqrt (x_sqrt_diag i))⁻¹)

section NormalizeClaims

/-- Counterexample for C3: with strictly positive weights `v = (1)` and the
caller-supplied square root `0` (accepted without validation by the source),
the output diagonal entry is `0`, not `1`.  (In float64 the same input
produces `0.0 ** -0.5 = inf` and a NaN diagonal — in either semantics the
diagonal entry is not 1.) -/
theorem normalized_x_diag_not_one_counterexample :
    compute_normalized_x_from_vector (0 : Mat 1) (fun _ => (1 : ℝ)) (some 0)
        (fun _ => (fun _ => (0 : ℝ), 1)) 0 0 ≠ 1 := by
  simp [compute_normalized_x_from_vector, effective_matrix_sqrt]

/-- Claim C3 (amended): for strictly positive `v` and an effective matrix square
root whose diagonal entries are strictly positive, every diagonal entry of
the normalization transform's output equals `1`, achieved by computing
`x = diag(v^(-1/2)) @ sqrt @ diag(v^(-1/2))` and rescaling `x` by the inverse
square root of its own diagonal. -/
theorem normalized_x_unit_diagonal {k : ℕ} (matrix_to_factorize : Mat (k + 1))
    (v : Fin (k + 1) → ℝ) (precomputed_sqrt : Option (Mat (k + 1)))
    (eigh : Mat (k + 1) → (Fin (k + 1) → ℝ) × Mat (k + 1))
    (hv : ∀ i, 0 < v i)
    (hs : ∀ i, 0 < effective_matrix_sqrt matrix_to_factorize v precomputed_sqrt eigh i i) :
    ∀ i, compute_normalized_x_from_vector matrix_to_factorize v precomputed_sqrt eigh i i
      = 1 := by
  intro i
  set s := effective_matrix_sqrt matrix_to_factorize v precomputed_sqrt eigh with hsdef
  set d : Fin (k + 1) → ℝ := fun j => (Real.sqrt (v j))⁻¹ with hddef
  have hx_entry : (Matrix.diagonal d * s * Matrix.diagonal d) i i = d i * s i i * d i := by
    rw [Matrix.mul_diagonal, Matrix.diagonal_mul]
  have hdpos : 0 < d i := by
    rw [hddef]
    exact inv_pos.mpr (Real.sqrt_pos.mpr (hv i))
  have hxpos : 0 < (Matrix.diagonal d * s * Matrix.diagonal d) i i := by
    rw [hx_entry]
    exact mul_pos (mul_pos hdpos (hs i)) hdpos
  show (Matrix.diagonal (fun j => (Real.sqrt ((Matrix.diagonal d * s * Matrix.diagonal d) j j))⁻¹) *
      (Matrix.diagonal d * s * Matrix.diagonal d) *
      Matrix.diagonal (fun j => (Real.sqrt ((Matrix.diagonal d * s * Matrix.diagonal d) j j))⁻¹)) i i = 1
  set x := Matrix.diagonal d * s * Matrix.diagonal d
  rw [Matrix.mul_diagonal, Matrix.diagonal_mul]
  have hsq : Real.sqrt (x i i) * Real.sqrt (x i i) = x i i :=
    Real.mul_self_sqrt (le_of_lt hxpos)
  field_simp

/-- Witness for the amended C3 at `v = (1)`, precomputed square root
`[[4]]`. -/
theorem normalized_x_unit_diagonal_witness :
    (∀ i : Fin 1, (0 : ℝ) < 1) ∧
    (∀ i : Fin 1, 0 < effective_matrix_sqrt (0 : Mat 1) (fun _ => (1 : ℝ))
        (some (Matrix.diagonal fun _ => (4 : ℝ))) (fun _ => (fun _ => (0 : ℝ), 1)) i i) ∧
    (∀ i : Fin 1, compute_normalized_x_from_vector (0 : Mat 1) (fun _ => (1 : ℝ))
        (some (Matrix.diagonal fun _ => (4 : ℝ))) (fun _ => (fun _ => (0 : ℝ), 1)) i i = 1) := by
  have hv : ∀ i : Fin 1, (0 : ℝ) < 1 := fun _ => one_pos
  have hs : ∀ i : Fin 1, 0 < effective_matrix_sqrt (0 : Mat 1) (fun _ => (1 : ℝ))
      (some (Matrix.diagonal fun _ => (4 : ℝ))) (fun _ => (fun _ => (0 : ℝ), 1)) i i := by
    intro i
    simp [effective_matrix_sqrt]
  exact ⟨hv, hs,
    normalized_x_unit_diagonal (0 : Mat 1) (fun _ => (1 : ℝ))
      (some (Matrix.diagonal fun _ => (4 : ℝ))) (fun _ => (fun _ => (0 : ℝ), 1)) hv hs⟩

end NormalizeClaims

/-- An IEEE-754-style scalar: a finite double, one of the two infinities, or
NaN.  Used to settle claims that are specifically about the NaN/Inf
behaviour of the backend's Cholesky factorization. -/
inductive F : Type
  | finite (x : ℝ)
  | inf
  | neginf
  | nan

/-- Embedding of `jnp.isnan` on one scalar. -/
def F.isnan : F → Bool
  | F.nan => true
  | _ => false

/-- Embedding of `jnp.isfinite` on one scalar (`false` exactly on the
non-finite values NaN, `+inf` and `-inf`). -/
def F.isfinite : F → Bool
  | F.finite _ => true
  | _ => false

/-- An IEEE-754 square root: `sqrt(+inf) = +inf`, `sqrt` of a negative number
(or of `-inf` or NaN) is NaN. -/
noncomputable def F.fsqrt : F → F
  | F.finite x => if x < 0 then F.nan else F.finite (Real.sqrt x)
  | F.inf => F.inf
  | F.neginf => F.nan
  | F.nan => F.nan

/-- Cholesky factorization of a 1×1 matrix `[[a]]`: the factor is `[[sqrt a]]`
(this is forced by the definition `L @ L^T = A`; the backend computes it with
the IEEE square root).  Models `jnp.linalg.cholesky` on 1×1 inputs. -/
noncomputable def cholesky1 (candidate : Matrix (Fin 1) (Fin 1) F) :
    Matrix (Fin 1) (Fin 1) F :=
  Matrix.of fun i j => F.fsqrt (candidate i j)

/-- Embedding of `jnp.any(jnp.isnan(m))`: whether any entry of `m` is NaN. -/
def any_nan {k : ℕ} (m : Matrix (Fin k) (Fin k) F) : Bool :=
  decide (∃ i j, (m i j).isnan = true)

/-- Entrywise view of a real matrix as a matrix of finite floats. -/
def toF {k : ℕ} (m : Mat k) : Matrix (Fin k) (Fin k) F :=
  Matrix.of fun i j => F.finite (m i j)

/-- The positive-definiteness test of `find_next_iterate` on 1×1 candidates:
`jnp.any(jnp.isnan(jnp.linalg.cholesky(candidate)))`. -/
noncomputable def non_pd_check (candidate : Mat 1) : Bool :=
  any_nan (cholesky1 (toF candidate))

/-- Embedding of `jnp.sum(grad ** 2)`. -/
noncomputable def sum_squares {k : ℕ} (grad : Mat k) : ℝ :=
  ∑ i, ∑ j, grad i j ^ 2

/-- Embedding of the recursive inner function `find_next_iterate(x_iter,
grad, init_lr)` of `optimize_factorization_grad_descent`.  The captured
`compiled_loss` is `compute_loss_in_x target`; the numeric
positive-definiteness test `jnp.any(jnp.isnan(jnp.linalg.cholesky(·)))` is
the parameter `cholNaN`; the unbounded recursion of the source carries an
explicit fuel argument and returns `none` when the fuel runs out. -/
noncomputable def find_next_iterate {k : ℕ} (target : Mat (k + 1))
    (cholNaN : Mat (k + 1) → Bool) :
    ℕ → Mat (k + 1) → Mat (k + 1) → ℝ → Option (Mat (k + 1))
  | 0, _, _, _ => none
  | fuel + 1, x_iter, grad, init_lr =>
    let candidate := x_iter - init_lr • grad
    if cholNaN candidate then
      find_next_iterate target cholNaN fuel x_iter grad (init_lr * 0.1)
    else
      let sufficient_decrease_condition :=
        compute_loss_in_x target x_iter + init_lr * 0.25 * sum_squares grad
      if compute_loss_in_x target candidate ≤ sufficient_decrease_condition then
        some candidate
      else
        find_next_iterate target cholNaN fuel x_iter grad (init_lr * 0.1)

section LineSearchClaims

/-- Claim C4: whenever the line-search step selector returns a candidate, that
candidate equals `current - (lr * 0.1 ^ j) • grad` for some retry count
`j ≥ 0`, it passed the positive-definiteness check, and it satisfies the
sufficient-decrease condition; moreover every earlier step size
`lr * 0.1 ^ m` (`m < j`) produced a candidate that failed one of the two
checks, which is what forced the retry with the step size multiplied by
0.1. -/
theorem find_next_iterate_spec {k : ℕ} (target : Mat (k + 1))
    (cholNaN : Mat (k + 1) → Bool) (fuel : ℕ) (x grad : Mat (k + 1)) (lr : ℝ)
    (c : Mat (k + 1)) (h : find_next_iterate target cholNaN fuel x grad lr = some c) :
    ∃ j : ℕ, c = x - (lr * 0.1 ^ j) • grad ∧
      cholNaN c = false ∧
      compute_loss_in_x target c ≤
        compute_loss_in_x target x + (lr * 0.1 ^ j) * 0.25 * sum_squares grad ∧
      ∀ m < j, cholNaN (x - (lr * 0.1 ^ m) • grad) = true ∨
        compute_loss_in_x target x + (lr * 0.1 ^ m) * 0.25 * sum_squares grad <
          compute_loss_in_x target (x - (lr * 0.1 ^ m) • grad) := by
  induction fuel generalizing lr with
  | zero => simp [find_next_iterate] at h
  | succ fuel ih =>
    simp only [find_next_iterate] at h
    by_cases hpd : cholNaN (x - lr • grad) = true
    · rw [if_pos hpd] at h
      obtain ⟨j, hc, hnan, hdec, hprev⟩ := ih (lr * 0.1) h
      have hs : lr * 0.1 * 0.1 ^ j = lr * 0.1 ^ (j + 1) := by ring
      refine ⟨j + 1, by rw [hc, hs], hnan, by rw [hs] at hdec; exact hdec, ?_⟩
      intro m hm
      cases m with
      | zero =>
        left
        have h0 : lr * 0.1 ^ 0 = lr := by ring
        rw [h0]
        exact hpd
      | succ m =>
        have hm' : m < j := Nat.lt_of_succ_lt_succ hm
        have hs' : lr * 0.1 * 0.1 ^ m = lr * 0.1 ^ (m + 1) := by ring
        have hfail := hprev m hm'
        rw [hs'] at hfail
        exact hfail
    · rw [if_neg hpd] at h
      rw [Bool.not_eq_true] at hpd
      by_cases hdec : compute_loss_in_x target (x - lr • grad) ≤
          compute_loss_in_x target x + lr * 0.25 * sum_squares grad
      · rw [if_pos hdec] at h
        have hc : x - lr • grad = c := Option.some_inj.mp h
        have h0 : lr * 0.1 ^ 0 = lr := by ring
        refine ⟨0, by rw [h0, hc], by rw [← hc]; exact hpd, ?_,
          fun m hm => absurd hm (Nat.not_lt_zero m)⟩
        rw [h0, ← hc]
        exact hdec
      · rw [if_neg hdec] at h
        obtain ⟨j, hc, hnan, hdecr, hprev⟩ := ih (lr * 0.1) h
        have hs : lr * 0.1 * 0.1 ^ j = lr * 0.1 ^ (j + 1) := by ring
        refine ⟨j + 1, by rw [hc, hs], hnan, by rw [hs] at hdecr; exact hdecr, ?_⟩
        intro m hm
        cases m with
        | zero =>
          right
          have h0 : lr * 0.1 ^ 0 = lr := by ring
          rw [h0]
          exact lt_of_not_le hdec
        | succ m =>
          have hm' : m < j := Nat.lt_of_succ_lt_succ hm
          have hs' : lr * 0.1 * 0.1 ^ m = lr * 0.1 ^ (m + 1) := by ring
          have hfail := hprev m hm'
          rw [hs'] at hfail
          exact hfail

/-- Helper: a concrete accepting run of the line search, at `target = 1`,
`x = 1`, `grad = 0`, `lr = 1`, with a positive-definiteness test that
accepts everything; the first candidate `1 - 1 • 0 = 1` is accepted. -/
theorem find_next_iterate_concrete_run :
    find_next_iterate (1 : Mat 1) (fun _ => false) 1 1 0 1 = some 1 := by
  simp [find_next_iterate, sum_squares]

/-- Witness for C4 at the concrete accepting run of
`find_next_iterate_concrete_run`. -/
theorem find_next_iterate_spec_witness :
    (find_next_iterate (1 : Mat 1) (fun _ => false) 1 1 0 1 = some 1) ∧
    ∃ j : ℕ, (1 : Mat 1) = 1 - ((1 : ℝ) * 0.1 ^ j) • (0 : Mat 1) ∧
      (fun _ : Mat 1 => false) (1 : Mat 1) = false ∧
      compute_loss_in_x (1 : Mat 1) 1 ≤
        compute_loss_in_x (1 : Mat 1) 1 + ((1 : ℝ) * 0.1 ^ j) * 0.25 * sum_squares (0 : Mat 1) ∧
      ∀ m < j, (fun _ : Mat 1 => false) (1 - ((1 : ℝ) * 0.1 ^ m) • (0 : Mat 1)) = true ∨
        compute_loss_in_x (1 : Mat 1) 1 + ((1 : ℝ) * 0.1 ^ m) * 0.25 * sum_squares (0 : Mat 1) <
          compute_loss_in_x (1 : Mat 1) (1 - ((1 : ℝ) * 0.1 ^ m) • (0 : Mat 1)) :=
  ⟨find_next_iterate_concrete_run,
    find_next_iterate_spec (1 : Mat 1) (fun _ => false) 1 1 0 1 1
      find_next_iterate_concrete_run⟩

end LineSearchClaims

section NanCheckClaims

/-- Counterexample for C5: the candidate `[[+inf]]` has Cholesky factorization
`[[sqrt(+inf)]] = [[+inf]]`, which contains a non-finite value but no NaN.
The code's rejection test `jnp.any(jnp.isnan(jnp.linalg.cholesky(candidate)))`
is therefore `false` — the candidate is not rejected — although the
factorization contains a non-finite (Inf) value, refuting the claimed
"non-finite (NaN or Inf)" criterion. -/
theorem non_pd_check_misses_inf_counterexample :
    any_nan (cholesky1 (Matrix.of fun _ _ : Fin 1 => F.inf)) = false ∧
    ((cholesky1 (Matrix.of fun _ _ : Fin 1 => F.inf)) 0 0).isfinite = false := by
  constructor
  · simp [any_nan, cholesky1, F.fsqrt, F.isnan]
  · rfl

/-- Claim C5 (amended): a candidate is rejected by the positive-definiteness check
(triggering a retry with the step size multiplied by 0.1) if and only if the
Cholesky factorization of the candidate contains NaN values; every candidate
whose factorization is free of NaN — even if it contains non-finite Inf
values — proceeds to the sufficient-decrease evaluation.  Stated for the
line search instantiated with the concrete NaN test `non_pd_check`. -/
theorem non_pd_rejection_iff_nan (target : Mat 1) (fuel : ℕ) (x grad : Mat 1)
    (lr : ℝ) :
    (any_nan (cholesky1 (toF (x - lr • grad))) = true →
      find_next_iterate target non_pd_check (fuel + 1) x grad lr =
        find_next_iterate target non_pd_check fuel x grad (lr * 0.1)) ∧
    (any_nan (cholesky1 (toF (x - lr • grad))) = false →
      find_next_iterate target non_pd_check (fuel + 1) x grad lr =
        if compute_loss_in_x target (x - lr • grad) ≤
            compute_loss_in_x target x + lr * 0.25 * sum_squares grad then
          some (x - lr • grad)
        else find_next_iterate target non_pd_check fuel x grad (lr * 0.1)) := by
  constructor
  · intro hnan
    simp only [find_next_iterate]
    rw [show non_pd_check (x - lr • grad) = true from hnan]
    simp
  · intro hnan
    simp only [find_next_iterate]
    rw [show non_pd_check (x - lr • grad) = false from hnan]
    simp

/-- Witness for the amended C5: at `x = 1`, `grad = 0`, `lr = 1` the
candidate is the identity, its factorization is NaN-free, and the selector
proceeds to the sufficient-decrease evaluation. -/
theorem non_pd_rejection_iff_nan_witness :
    any_nan (cholesky1 (toF ((1 : Mat 1) - (1 : ℝ) • 0))) = false ∧
    find_next_iterate (1 : Mat 1) non_pd_check 1 1 0 1 =
      (if compute_loss_in_x (1 : Mat 1) ((1 : Mat 1) - (1 : ℝ) • 0) ≤
          compute_loss_in_x (1 : Mat 1) 1 + 1 * 0.25 * sum_squares (0 : Mat 1) then
        some ((1 : Mat 1) - (1 : ℝ) • 0)
      else find_next_iterate (1 : Mat 1) non_pd_check 0 1 0 (1 * 0.1)) := by
  have hfalse : any_nan (cholesky1 (toF ((1 : Mat 1) - (1 : ℝ) • 0))) = false := by
    simp only [any_nan, cholesky1, toF, F.fsqrt, F.isnan, Matrix.one_apply, smul_zero,
      sub_zero, Matrix.of_apply, decide_eq_false_iff_not, not_exists]
    intro i j
    have hij : i = j := Subsingleton.elim i j
    subst hij
    norm_num
  exact ⟨hfalse, (non_pd_rejection_iff_nan 1 0 1 0 1).2 hfalse⟩

end NanCheckClaims

/-- Local iteration state of the optimization loop: the current iterate
`x_iter` and the two trajectory accumulators `loss_array` and `time_array`. -/
structure GDState (k : ℕ) : Type where
  x_iter : Mat k
  loss_array : List ℝ
  time_array : List ℝ

/-- Embedding of `grad.at[jnp.diag_indices_from(grad)].set(0)`: the gradient
with its diagonal entries replaced by zero. -/
def zero_diagonal {k : ℕ} (grad : Mat k) : Mat k :=
  Matrix.of fun a b => if a = b then 0 else grad a b

/-- Embedding of one pass through the body of `for i in range(n_iters)` in
`optimize_factorization_grad_descent`: evaluate loss and gradient at the
current iterate (`value_and_grad` is `compute_loss_in_x target` paired with
the autodiff black box `gradf`), zero the gradient diagonal, append the loss,
update the iterate by line search or fixed step, orthogonally project onto
symmetric matrices, and append the elapsed wall-clock reading
`elapsed i = time.time() - start`. -/
noncomputable def gd_iteration {k : ℕ} (target : Mat (k + 1))
    (gradf : Mat (k + 1) → Mat (k + 1)) (cholNaN : Mat (k + 1) → Bool)
    (elapsed : ℕ → ℝ) (fuel : ℕ) (lr : ℝ) (use_armijo_rule : Bool) (i : ℕ)
    (st : GDState (k + 1)) : Option (GDState (k + 1)) :=
  let loss := compute_loss_in_x target st.x_iter
  let grad := gradf st.x_iter
  let grad1 := zero_diagonal grad
  let loss_array := st.loss_array ++ [loss]
  let next : Option (Mat (k + 1)) :=
    if use_armijo_rule then find_next_iterate target cholNaN fuel st.x_iter grad1 lr
    else some (st.x_iter - lr • grad1)
  match next with
  | none => none
  | some x1 =>
      some ⟨((1 : ℝ) / 2) • (x1 + x1ᵀ), loss_array, st.time_array ++ [elapsed i]⟩

/-- The loop `for i in range(n_iters)`, with `m` iterations left and `i` the
current iteration index; `none` means the line search inside some iteration
exhausted its fuel. -/
noncomputable def gd_loop {k : ℕ} (target : Mat (k + 1))
    (gradf : Mat (k + 1) → Mat (k + 1)) (cholNaN : Mat (k + 1) → Bool)
    (elapsed : ℕ → ℝ) (fuel : ℕ) (lr : ℝ) (use_armijo_rule : Bool) :
    ℕ → ℕ → GDState (k + 1) → Option (GDState (k + 1))
  | 0, _, st => some st
  | m + 1, i, st =>
      match gd_iteration target gradf cholNaN elapsed fuel lr use_armijo_rule i st with
      | none => none
      | some st1 => gd_loop target gradf cholNaN elapsed fuel lr use_armijo_rule m (i + 1) st1

/-- Embedding of `optimize_factorization_grad_descent(target, n_iters,
initial_x, lr, use_armijo_rule)`.  The backend black boxes are explicit:
`gradf` is the autodiff gradient of the captured loss, `cholNaN` the
Cholesky-NaN positive-definiteness test, `elapsed` the wall-clock readings,
and `fuel` bounds the line-search recursion.  After the loop the recorded
times are shifted by the first recorded time; on an empty trajectory
(`n_iters = 0`) the subscript `time_array[0]` raises, modelled as `none`. -/
noncomputable def optimize_factorization_grad_descent {k : ℕ}
    (target : Mat (k + 1)) (gradf : Mat (k + 1) → Mat (k + 1))
    (cholNaN : Mat (k + 1) → Bool) (elapsed : ℕ → ℝ) (fuel : ℕ) (n_iters : ℕ)
    (initial_x : Mat (k + 1)) (lr : ℝ) (use_armijo_rule : Bool) :
    Option (Mat (k + 1) × List ℝ × List ℝ) :=
  match gd_loop target gradf cholNaN elapsed fuel lr use_armijo_rule n_iters 0
      ⟨initial_x, [], []⟩ with
  | none => none
  | some st =>
      match st.time_array with
      | [] => none
      | initial_time :: _ =>
          some (st.x_iter, st.loss_array, st.time_array.map fun t => t - initial_time)

section DriverHelpers

/-- Helper: structural description of one successful loop iteration. -/
theorem gd_iteration_some {k : ℕ} (target : Mat (k + 1))
    (gradf : Mat (k + 1) → Mat (k + 1)) (cholNaN : Mat (k + 1) → Bool)
    (elapsed : ℕ → ℝ) (fuel : ℕ) (lr : ℝ) (armijo : Bool) (i : ℕ)
    (st st1 : GDState (k + 1))
    (h : gd_iteration target gradf cholNaN elapsed fuel lr armijo i st = some st1) :
    ∃ x1 : Mat (k + 1),
      (if armijo then
          find_next_iterate target cholNaN fuel st.x_iter
            (zero_diagonal (gradf st.x_iter)) lr = some x1
        else x1 = st.x_iter - lr • zero_diagonal (gradf st.x_iter)) ∧
      st1 = ⟨((1 : ℝ) / 2) • (x1 + x1ᵀ),
        st.loss_array ++ [compute_loss_in_x target st.x_iter],
        st.time_array ++ [elapsed i]⟩ := by
  by_cases ha : armijo = true
  · subst ha
    simp only [gd_iteration, if_true] at h
    cases hfind : find_next_iterate target cholNaN fuel st.x_iter
        (zero_diagonal (gradf st.x_iter)) lr with
    | none => rw [hfind] at h; exact absurd h (by simp)
    | some x1 =>
        rw [hfind] at h
        exact ⟨x1, by simp [hfind], (Option.some_inj.mp h).symm⟩
  · rw [Bool.not_eq_true] at ha
    subst ha
    simp only [gd_iteration, if_false, Bool.false_eq_true] at h
    exact ⟨st.x_iter - lr • zero_diagonal (gradf st.x_iter), by simp,
      (Option.some_inj.mp h).symm⟩

/-- Helper: when the Armijo flag is off, an iteration always succeeds. -/
theorem gd_iteration_total {k : ℕ} (target : Mat (k + 1))
    (gradf : Mat (k + 1) → Mat (k + 1)) (cholNaN : Mat (k + 1) → Bool)
    (elapsed : ℕ → ℝ) (fuel : ℕ) (lr : ℝ) (i : ℕ) (st : GDState (k + 1)) :
    gd_iteration target gradf cholNaN elapsed fuel lr false i st =
      some ⟨((1 : ℝ) / 2) •
          ((st.x_iter - lr • zero_diagonal (gradf st.x_iter)) +
            (st.x_iter - lr • zero_diagonal (gradf st.x_iter))ᵀ),
        st.loss_array ++ [compute_loss_in_x target st.x_iter],
        st.time_array ++ [elapsed i]⟩ := by
  simp [gd_iteration]

/-- Helper: a successful line search returns `x - s • grad` for some real
step size `s`. -/
theorem find_next_iterate_shape {k : ℕ} (target : Mat (k + 1))
    (cholNaN : Mat (k + 1) → Bool) (fuel : ℕ) (x grad : Mat (k + 1)) (lr : ℝ)
    (c : Mat (k + 1)) (h : find_next_iterate target cholNaN fuel x grad lr = some c) :
    ∃ s : ℝ, c = x - s • grad := by
  induction fuel generalizing lr with
  | zero => simp [find_next_iterate] at h
  | succ fuel ih =>
    simp only [find_next_iterate] at h
    by_cases hpd : cholNaN (x - lr • grad) = true
    · rw [if_pos hpd] at h
      exact ih (lr * 0.1) h
    · rw [if_neg hpd] at h
      by_cases hdec : compute_loss_in_x target (x - lr • grad) ≤
          compute_loss_in_x target x + lr * 0.25 * sum_squares grad
      · rw [if_pos hdec] at h
        exact ⟨lr, (Option.some_inj.mp h).symm⟩
      · rw [if_neg hdec] at h
        exact ih (lr * 0.1) h

/-- Helper: trajectory lengths grow by exactly one per loop iteration. -/
theorem gd_loop_lengths {k : ℕ} (target : Mat (k + 1))
    (gradf : Mat (k + 1) → Mat (k + 1)) (cholNaN : Mat (k + 1) → Bool)
    (elapsed : ℕ → ℝ) (fuel : ℕ) (lr : ℝ) (armijo : Bool) (m i : ℕ)
    (st st' : GDState (k + 1))
    (h : gd_loop target gradf cholNaN elapsed fuel lr armijo m i st = some st') :
    st'.loss_array.length = st.loss_array.length + m ∧
      st'.time_array.length = st.time_array.length + m := by
  induction m generalizing i st with
  | zero =>
    simp only [gd_loop] at h
    rw [← Option.some_inj.mp h]
    exact ⟨rfl, rfl⟩
  | succ m ih =>
    simp only [gd_loop] at h
    cases hit : gd_iteration target gradf cholNaN elapsed fuel lr armijo i st with
    | none => rw [hit] at h; exact absurd h (by simp)
    | some st1 =>
      rw [hit] at h
      obtain ⟨x1, _, hst1⟩ := gd_iteration_some target gradf cholNaN elapsed fuel lr
        armijo i st st1 hit
      obtain ⟨hl, ht⟩ := ih (i + 1) st1 h
      constructor
      · rw [hl, hst1]
        simp [Nat.add_assoc, Nat.add_comm 1 m]
      · rw [ht, hst1]
        simp [Nat.add_assoc, Nat.add_comm 1 m]

/-- Helper: with the Armijo flag off, the loop always completes. -/
theorem gd_loop_total {k : ℕ} (target : Mat (k + 1))
    (gradf : Mat (k + 1) → Mat (k + 1)) (cholNaN : Mat (k + 1) → Bool)
    (elapsed : ℕ → ℝ) (fuel : ℕ) (lr : ℝ) (m i : ℕ) (st : GDState (k + 1)) :
    ∃ st', gd_loop target gradf cholNaN elapsed fuel lr false m i st = some st' := by
  induction m generalizing i st with
  | zero => exact ⟨st, rfl⟩
  | succ m ih =>
    simp only [gd_loop]
    rw [gd_iteration_total]
    exact ih (i + 1) _

/-- Helper: after at least one iteration, the iterate is symmetric. -/
theorem gd_loop_symm {k : ℕ} (target : Mat (k + 1))
    (gradf : Mat (k + 1) → Mat (k + 1)) (cholNaN : Mat (k + 1) → Bool)
    (elapsed : ℕ → ℝ) (fuel : ℕ) (lr : ℝ) (armijo : Bool) (m i : ℕ)
    (st st' : GDState (k + 1))
    (h : gd_loop target gradf cholNaN elapsed fuel lr armijo (m + 1) i st = some st') :
    st'.x_iterᵀ = st'.x_iter := by
  induction m generalizing i st with
  | zero =>
    simp only [gd_loop] at h
    cases hit : gd_iteration target gradf cholNaN elapsed fuel lr armijo i st with
    | none => rw [hit] at h; exact absurd h (by simp)
    | some st1 =>
      rw [hit] at h
      obtain ⟨x1, _, hst1⟩ := gd_iteration_some target gradf cholNaN elapsed fuel lr
        armijo i st st1 hit
      have hst' : st' = st1 := (Option.some_inj.mp h).symm
      rw [hst', hst1]
      simp only [Matrix.transpose_smul, Matrix.transpose_add,
        Matrix.transpose_transpose]
      rw [add_comm x1ᵀ x1]
  | succ m ih =>
    simp only [gd_loop] at h
    cases hit : gd_iteration target gradf cholNaN elapsed fuel lr armijo i st with
    | none => rw [hit] at h; exact absurd h (by simp)
    | some st1 =>
      rw [hit] at h
      exact ih (i + 1) st1 h

/-- Helper: one iteration never changes the diagonal of the iterate. -/
theorem gd_iteration_diag {k : ℕ} (target : Mat (k + 1))
    (gradf : Mat (k + 1) → Mat (k + 1)) (cholNaN : Mat (k + 1) → Bool)
    (elapsed : ℕ → ℝ) (fuel : ℕ) (lr : ℝ) (armijo : Bool) (i : ℕ)
    (st st1 : GDState (k + 1))
    (hit : gd_iteration target gradf cholNaN elapsed fuel lr armijo i st = some st1) :
    ∀ a, st1.x_iter a a = st.x_iter a a := by
  obtain ⟨x1, hx1, hst1⟩ := gd_iteration_some target gradf cholNaN elapsed fuel lr
    armijo i st st1 hit
  intro a
  have hx1diag : x1 a a = st.x_iter a a := by
    have hzero : ∀ s : ℝ,
        (st.x_iter - s • zero_diagonal (gradf st.x_iter)) a a = st.x_iter a a := by
      intro s
      simp [zero_diagonal, Matrix.sub_apply, Matrix.smul_apply]
    by_cases ha : armijo = true
    · rw [ha] at hx1
      simp only [if_true] at hx1
      obtain ⟨s, hs⟩ := find_next_iterate_shape target cholNaN fuel st.x_iter
        (zero_diagonal (gradf st.x_iter)) lr x1 hx1
      rw [hs]
      exact hzero s
    · rw [Bool.not_eq_true] at ha
      rw [ha] at hx1
      simp only [Bool.false_eq_true, if_false] at hx1
      rw [hx1]
      exact hzero lr
  rw [hst1]
  show (((1 : ℝ) / 2) • (x1 + x1ᵀ)) a a = st.x_iter a a
  simp only [Matrix.smul_apply, Matrix.add_apply, Matrix.transpose_apply, hx1diag,
    smul_eq_mul]
  ring

/-- Helper: the loop never changes the diagonal of the iterate. -/
theorem gd_loop_diag {k : ℕ} (target : Mat (k + 1))
    (gradf : Mat (k + 1) → Mat (k + 1)) (cholNaN : Mat (k + 1) → Bool)
    (elapsed : ℕ → ℝ) (fuel : ℕ) (lr : ℝ) (armijo : Bool) (m i : ℕ)
    (st st' : GDState (k + 1))
    (h : gd_loop target gradf cholNaN elapsed fuel lr armijo m i st = some st') :
    ∀ a, st'.x_iter a a = st.x_iter a a := by
  induction m generalizing i st with
  | zero =>
    simp only [gd_loop] at h
    rw [← Option.some_inj.mp h]
    exact fun a => rfl
  | succ m ih =>
    simp only [gd_loop] at h
    cases hit : gd_iteration target gradf cholNaN elapsed fuel lr armijo i st with
    | none => rw [hit] at h; exact absurd h (by simp)
    | some st1 =>
      rw [hit] at h
      intro a
      rw [ih (i + 1) st1 h a,
        gd_iteration_diag target gradf cholNaN elapsed fuel lr armijo i st st1 hit a]

/-- Helper: the recorded raw times are exactly the clock readings, in
iteration order. -/
theorem gd_loop_time {k : ℕ} (target : Mat (k + 1))
    (gradf : Mat (k + 1) → Mat (k + 1)) (cholNaN : Mat (k + 1) → Bool)
    (elapsed : ℕ → ℝ) (fuel : ℕ) (lr : ℝ) (armijo : Bool) (m i : ℕ)
    (st st' : GDState (k + 1))
    (h : gd_loop target gradf cholNaN elapsed fuel lr armijo m i st = some st') :
    st'.time_array = st.time_array ++ (List.range m).map fun j => elapsed (i + j) := by
  induction m generalizing i st with
  | zero =>
    simp only [gd_loop] at h
    rw [← Option.some_inj.mp h]
    simp
  | succ m ih =>
    simp only [gd_loop] at h
    cases hit : gd_iteration target gradf cholNaN elapsed fuel lr armijo i st with
    | none => rw [hit] at h; exact absurd h (by simp)
    | some st1 =>
      rw [hit] at h
      obtain ⟨x1, _, hst1⟩ := gd_iteration_some target gradf cholNaN elapsed fuel lr
        armijo i st st1 hit
      rw [ih (i + 1) st1 h, hst1]
      show (st.time_array ++ [elapsed i]) ++
          ((List.range m).map fun j => elapsed (i + 1 + j)) =
        st.time_array ++ (List.range (m + 1)).map fun j => elapsed (i + j)
      rw [List.append_assoc, List.range_succ_eq_map]
      simp only [List.map_cons, List.map_map, Nat.add_zero, List.singleton_append]
      have hfun : (fun j => elapsed (i + 1 + j)) =
          ((fun j => elapsed (i + j)) ∘ Nat.succ) := by
        funext j
        simp only [Function.comp_apply]
        congr 1
        omega
      rw [hfun]

/-- Helper: the loss trajectory grows by appending, and the first entry
appended by a nonempty run is the loss of the state fed into the run. -/
theorem gd_loop_loss_first {k : ℕ} (target : Mat (k + 1))
    (gradf : Mat (k + 1) → Mat (k + 1)) (cholNaN : Mat (k + 1) → Bool)
    (elapsed : ℕ → ℝ) (fuel : ℕ) (lr : ℝ) (armijo : Bool) (m i : ℕ)
    (st st' : GDState (k + 1))
    (h : gd_loop target gradf cholNaN elapsed fuel lr armijo m i st = some st') :
    ∃ tail : List ℝ, st'.loss_array = st.loss_array ++ tail ∧
      (1 ≤ m → tail.head? = some (compute_loss_in_x target st.x_iter)) := by
  induction m generalizing i st with
  | zero =>
    simp only [gd_loop] at h
    rw [← Option.some_inj.mp h]
    exact ⟨[], by simp, fun hm => absurd hm (by omega)⟩
  | succ m ih =>
    simp only [gd_loop] at h
    cases hit : gd_iteration target gradf cholNaN elapsed fuel lr armijo i st with
    | none => rw [hit] at h; exact absurd h (by simp)
    | some st1 =>
      rw [hit] at h
      obtain ⟨x1, _, hst1⟩ := gd_iteration_some target gradf cholNaN elapsed fuel lr
        armijo i st st1 hit
      obtain ⟨tail1, htail1, _⟩ := ih (i + 1) st1 h
      refine ⟨compute_loss_in_x target st.x_iter :: tail1, ?_, fun _ => rfl⟩
      rw [htail1, hst1]
      simp

/-- Helper: the loss of the identity target at the identity iterate is 1. -/
theorem concrete_loss_one : compute_loss_in_x (1 : Mat 1) 1 = 1 := by
  have hadj : hermitian_adjoint (1 : Mat 1) = 1 := by
    ext a b
    simp [hermitian_adjoint, Matrix.map_apply, Matrix.transpose_apply, Matrix.one_apply,
      eq_comm]
  have hmax : max_diag (1 : Mat 1) = 1 := by
    unfold max_diag
    simp [Matrix.one_apply]
  unfold compute_loss_in_x
  rw [hadj, hmax]
  simp

/-- Helper: a fully concrete fixed-step run — identity target, identity
initial iterate, zero gradient oracle, one iteration — returning the
identity iterate, loss trajectory `[1]` and time trajectory `[0]`. -/
theorem concrete_driver_run :
    optimize_factorization_grad_descent (1 : Mat 1) (fun _ => 0) (fun _ => false)
      (fun j => (j : ℝ)) 0 1 1 1 false = some (1, [1], [0]) := by
  have hzd : zero_diagonal (0 : Mat 1) = 0 := by
    ext a b
    by_cases hab : a = b <;> simp [zero_diagonal, hab]
  have hstep : (1 : Mat 1) - (1 : ℝ) • zero_diagonal (0 : Mat 1) = 1 := by
    rw [hzd]
    simp
  have hsym : ((1 : ℝ) / 2) • ((1 : Mat 1) + (1 : Mat 1)ᵀ) = 1 := by
    rw [Matrix.transpose_one]
    ext a b
    by_cases hab : a = b <;> simp [Matrix.smul_apply, Matrix.add_apply, Matrix.one_apply,
      hab] <;> norm_num
  have hit := gd_iteration_total (1 : Mat 1) (fun _ => 0) (fun _ => false)
    (fun j => (j : ℝ)) 0 1 0 ⟨1, [], []⟩
  rw [show (⟨1, [], []⟩ : GDState 1).x_iter = 1 from rfl] at hit
  rw [hstep, hsym, concrete_loss_one] at hit
  unfold optimize_factorization_grad_descent
  simp only [gd_loop]
  rw [hit]
  simp only [gd_loop]
  norm_num

/-- Helper: inversion of a successful driver call — the loop succeeded, the
recorded time trajectory is nonempty, and the returned triple is built from
the final state with times shifted by the first recorded time. -/
theorem optimize_some_inv {k : ℕ} (target : Mat (k + 1))
    (gradf : Mat (k + 1) → Mat (k + 1)) (cholNaN : Mat (k + 1) → Bool)
    (elapsed : ℕ → ℝ) (fuel : ℕ) (n_iters : ℕ) (initial_x : Mat (k + 1)) (lr : ℝ)
    (armijo : Bool) (x : Mat (k + 1)) (la ta : List ℝ)
    (h : optimize_factorization_grad_descent target gradf cholNaN elapsed fuel n_iters
        initial_x lr armijo = some (x, la, ta)) :
    ∃ st : GDState (k + 1), ∃ t0 : ℝ, ∃ rest : List ℝ,
      gd_loop target gradf cholNaN elapsed fuel lr armijo n_iters 0
          ⟨initial_x, [], []⟩ = some st ∧
      st.time_array = t0 :: rest ∧ x = st.x_iter ∧ la = st.loss_array ∧
      ta = st.time_array.map fun t => t - t0 := by
  unfold optimize_factorization_grad_descent at h
  cases hloop : gd_loop target gradf cholNaN elapsed fuel lr armijo n_iters 0
      ⟨initial_x, [], []⟩ with
  | none => rw [hloop] at h; exact Option.noConfusion h
  | some st =>
    rw [hloop] at h
    obtain ⟨xi, larr, tarr⟩ := st
    cases tarr with
    | nil => exact Option.noConfusion h
    | cons t0 rest =>
      have h3 : (xi, larr, (t0 :: rest).map fun t => t - t0) = (x, la, ta) :=
        Option.some_inj.mp h
      exact ⟨⟨xi, larr, t0 :: rest⟩, t0, rest, rfl, rfl,
        (congrArg (fun p => p.1) h3).symm, (congrArg (fun p => p.2.1) h3).symm,
        (congrArg (fun p => p.2.2) h3).symm⟩

/-- Helper: on the fixed-step path with a positive iteration count the
driver always returns. -/
theorem optimize_total_fixed {k : ℕ} (target : Mat (k + 1))
    (gradf : Mat (k + 1) → Mat (k + 1)) (cholNaN : Mat (k + 1) → Bool)
    (elapsed : ℕ → ℝ) (fuel : ℕ) (n_iters : ℕ) (initial_x : Mat (k + 1)) (lr : ℝ)
    (hn : 0 < n_iters) :
    ∃ r, optimize_factorization_grad_descent target gradf cholNaN elapsed fuel n_iters
      initial_x lr false = some r := by
  obtain ⟨st, hst⟩ := gd_loop_total target gradf cholNaN elapsed fuel lr n_iters 0
    ⟨initial_x, [], []⟩
  obtain ⟨hl, ht⟩ := gd_loop_lengths target gradf cholNaN elapsed fuel lr false
    n_iters 0 ⟨initial_x, [], []⟩ st hst
  obtain ⟨xi, larr, tarr⟩ := st
  cases tarr with
  | nil =>
    simp at ht
    omega
  | cons t0 rest =>
    refine ⟨(xi, larr, (t0 :: rest).map fun t => t - t0), ?_⟩
    unfold optimize_factorization_grad_descent
    rw [hst]

section DriverClaims

/-- Claim C6: for a positive iteration count the driver runs exactly `n_iters`
iterations with no early stopping or convergence check — whenever it
returns, both returned trajectories have length exactly `n_iters`, one entry
appended per completed iteration, and on the fixed-step path it always
returns. -/
theorem optimize_trajectory_lengths {k : ℕ} (target : Mat (k + 1))
    (gradf : Mat (k + 1) → Mat (k + 1)) (cholNaN : Mat (k + 1) → Bool)
    (elapsed : ℕ → ℝ) (fuel : ℕ) (n_iters : ℕ) (initial_x : Mat (k + 1)) (lr : ℝ)
    (use_armijo_rule : Bool) :
    (∀ x la ta, optimize_factorization_grad_descent target gradf cholNaN elapsed fuel
        n_iters initial_x lr use_armijo_rule = some (x, la, ta) →
      la.length = n_iters ∧ ta.length = n_iters) ∧
    (use_armijo_rule = false → 0 < n_iters →
      ∃ r, optimize_factorization_grad_descent target gradf cholNaN elapsed fuel
        n_iters initial_x lr use_armijo_rule = some r) := by
  constructor
  · intro x la ta h
    obtain ⟨st, t0, rest, hloop, hta, hx, hla, hta2⟩ := optimize_some_inv target gradf
      cholNaN elapsed fuel n_iters initial_x lr use_armijo_rule x la ta h
    obtain ⟨hl, ht⟩ := gd_loop_lengths target gradf cholNaN elapsed fuel lr
      use_armijo_rule n_iters 0 ⟨initial_x, [], []⟩ st hloop
    constructor
    · rw [hla]
      simpa using hl
    · rw [hta2, List.length_map]
      simpa using ht
  · intro harm hn
    subst harm
    exact optimize_total_fixed target gradf cholNaN elapsed fuel n_iters initial_x lr hn

/-- Witness for C6: the concrete fixed-step run returns and its trajectories
have length 1. -/
theorem optimize_trajectory_lengths_witness :
    ∃ r, optimize_factorization_grad_descent (1 : Mat 1) (fun _ => 0) (fun _ => false)
      (fun j => (j : ℝ)) 0 1 1 1 false = some r :=
  (optimize_trajectory_lengths (1 : Mat 1) (fun _ => 0) (fun _ => false)
    (fun j => (j : ℝ)) 0 1 1 1 false).2 rfl one_pos

/-- Claim C7: after every iteration (on both the backtracking and fixed-step
paths) the iterate is replaced by `(x + x^T) / 2`, so the state at the end
of every iteration, and the final returned iterate, equals its own
transpose. -/
theorem optimize_iterate_symmetric {k : ℕ} (target : Mat (k + 1))
    (gradf : Mat (k + 1) → Mat (k + 1)) (cholNaN : Mat (k + 1) → Bool)
    (elapsed : ℕ → ℝ) (fuel : ℕ) (n_iters : ℕ) (initial_x : Mat (k + 1)) (lr : ℝ)
    (use_armijo_rule : Bool) :
    (∀ i st st1, gd_iteration target gradf cholNaN elapsed fuel lr use_armijo_rule i st
        = some st1 → st1.x_iterᵀ = st1.x_iter) ∧
    (∀ x la ta, 0 < n_iters →
      optimize_factorization_grad_descent target gradf cholNaN elapsed fuel n_iters
        initial_x lr use_armijo_rule = some (x, la, ta) → xᵀ = x) := by
  constructor
  · intro i st st1 hit
    obtain ⟨x1, _, hst1⟩ := gd_iteration_some target gradf cholNaN elapsed fuel lr
      use_armijo_rule i st st1 hit
    rw [hst1]
    show (((1 : ℝ) / 2) • (x1 + x1ᵀ))ᵀ = ((1 : ℝ) / 2) • (x1 + x1ᵀ)
    simp only [Matrix.transpose_smul, Matrix.transpose_add, Matrix.transpose_transpose]
    rw [add_comm x1ᵀ x1]
  · intro x la ta hn h
    obtain ⟨st, t0, rest, hloop, hta, hx, hla, hta2⟩ := optimize_some_inv target gradf
      cholNaN elapsed fuel n_iters initial_x lr use_armijo_rule x la ta h
    obtain ⟨m, hm⟩ := Nat.exists_eq_succ_of_ne_zero (Nat.pos_iff_ne_zero.mp hn)
    rw [hm] at hloop
    have hsym := gd_loop_symm target gradf cholNaN elapsed fuel lr use_armijo_rule m 0
      ⟨initial_x, [], []⟩ st hloop
    rw [hx]
    exact hsym

/-- Witness for C7: the concrete run's final iterate is symmetric. -/
theorem optimize_iterate_symmetric_witness :
    (0 < 1) ∧ (1 : Mat 1)ᵀ = 1 :=
  ⟨one_pos,
    (optimize_iterate_symmetric (1 : Mat 1) (fun _ => 0) (fun _ => false)
      (fun j => (j : ℝ)) 0 1 1 1 false).2 1 [1] [0] one_pos concrete_driver_run⟩

/-- Claim C8: the diagonal of the gradient is zeroed before use, the update of a
single iteration never changes the diagonal entries of the iterate, and
hence the final iterate has the diagonal of the initial one (on both the
backtracking and the fixed-step paths). -/
theorem optimize_diag_frozen {k : ℕ} (target : Mat (k + 1))
    (gradf : Mat (k + 1) → Mat (k + 1)) (cholNaN : Mat (k + 1) → Bool)
    (elapsed : ℕ → ℝ) (fuel : ℕ) (n_iters : ℕ) (initial_x : Mat (k + 1)) (lr : ℝ)
    (use_armijo_rule : Bool) :
    (∀ g : Mat (k + 1), ∀ a, zero_diagonal g a a = 0) ∧
    (∀ i st st1, gd_iteration target gradf cholNaN elapsed fuel lr use_armijo_rule i st
        = some st1 → ∀ a, st1.x_iter a a = st.x_iter a a) ∧
    (∀ x la ta, optimize_factorization_grad_descent target gradf cholNaN elapsed fuel
        n_iters initial_x lr use_armijo_rule = some (x, la, ta) →
      ∀ a, x a a = initial_x a a) := by
  refine ⟨fun g a => by simp [zero_diagonal], ?_, ?_⟩
  · intro i st st1 hit
    exact gd_iteration_diag target gradf cholNaN elapsed fuel lr use_armijo_rule i st
      st1 hit
  · intro x la ta h
    obtain ⟨st, t0, rest, hloop, hta, hx, hla, hta2⟩ := optimize_some_inv target gradf
      cholNaN elapsed fuel n_iters initial_x lr use_armijo_rule x la ta h
    have hdiag := gd_loop_diag target gradf cholNaN elapsed fuel lr use_armijo_rule
      n_iters 0 ⟨initial_x, [], []⟩ st hloop
    intro a
    rw [hx]
    exact hdiag a

/-- Witness for C8: the concrete run preserves the identity diagonal. -/
theorem optimize_diag_frozen_witness :
    ∀ a : Fin 1, (1 : Mat 1) a a = (1 : Mat 1) a a :=
  (optimize_diag_frozen (1 : Mat 1) (fun _ => 0) (fun _ => false)
    (fun j => (j : ℝ)) 0 1 1 1 false).2.2 1 [1] [0] concrete_driver_run

/-- Claim C9: after the loop the recorded elapsed times are shifted down by the
first recorded time, so for every run with `n_iters ≥ 1` the returned time
trajectory starts with exactly `0` and its entry at index `idx` is the raw
clock reading of iteration `idx` minus the raw reading of iteration `0`. -/
theorem optimize_time_shifted {k : ℕ} (target : Mat (k + 1))
    (gradf : Mat (k + 1) → Mat (k + 1)) (cholNaN : Mat (k + 1) → Bool)
    (elapsed : ℕ → ℝ) (fuel : ℕ) (n_iters : ℕ) (initial_x : Mat (k + 1)) (lr : ℝ)
    (use_armijo_rule : Bool) (x : Mat (k + 1)) (la ta : List ℝ) (hn : 0 < n_iters)
    (h : optimize_factorization_grad_descent target gradf cholNaN elapsed fuel n_iters
      initial_x lr use_armijo_rule = some (x, la, ta)) :
    ta.head? = some 0 ∧
      ∀ idx, idx < n_iters → ta[idx]? = some (elapsed idx - elapsed 0) := by
  obtain ⟨st, t0, rest, hloop, hta, hx, hla, hta2⟩ := optimize_some_inv target gradf
    cholNaN elapsed fuel n_iters initial_x lr use_armijo_rule x la ta h
  have htime0 := gd_loop_time target gradf cholNaN elapsed fuel lr use_armijo_rule
    n_iters 0 ⟨initial_x, [], []⟩ st hloop
  have hmapeq : (List.range n_iters).map (fun j => elapsed (0 + j)) =
      (List.range n_iters).map fun j : ℕ => elapsed j := by
    apply List.map_congr_left
    intro a _
    rw [Nat.zero_add]
  have htime : st.time_array = (List.range n_iters).map fun j : ℕ => elapsed j := by
    rw [htime0, ← hmapeq]
    rfl
  obtain ⟨m, hm⟩ := Nat.exists_eq_succ_of_ne_zero (Nat.pos_iff_ne_zero.mp hn)
  have ht0 : t0 = elapsed 0 := by
    have hcons : t0 :: rest = (List.range n_iters).map fun j => elapsed j :=
      hta.symm.trans htime
    rw [hm, List.range_succ_eq_map, List.map_cons] at hcons
    exact (List.cons_eq_cons.mp hcons).1
  constructor
  · rw [hta2, hta, List.map_cons, List.head?_cons, sub_self]
  · intro idx hidx
    rw [hta2, htime, List.map_map, List.getElem?_map, List.getElem?_range hidx, ht0]
    rfl

/-- Witness for C9: the concrete run returns time trajectory `[0]`, whose
head is 0 and whose only entry is the clock difference of iteration 0. -/
theorem optimize_time_shifted_witness :
    ([(0 : ℝ)].head? = some 0) ∧
      ∀ idx : ℕ, idx < 1 → [(0 : ℝ)][idx]? = some ((idx : ℝ) - ((0 : ℕ) : ℝ)) :=
  optimize_time_shifted (1 : Mat 1) (fun _ => 0) (fun _ => false) (fun j => (j : ℝ))
    0 1 1 1 false 1 [1] [0] one_pos concrete_driver_run

/-- Claim C10: every loss entry is the loss of the iterate as it stood before that
iteration's update — each iteration appends the pre-update loss, and for a
successful run the first recorded loss is the loss of `initial_x` (so the
final iterate's loss is never recorded: exactly `n_iters` pre-update losses
are stored). -/
theorem optimize_loss_pre_update {k : ℕ} (target : Mat (k + 1))
    (gradf : Mat (k + 1) → Mat (k + 1)) (cholNaN : Mat (k + 1) → Bool)
    (elapsed : ℕ → ℝ) (fuel : ℕ) (n_iters : ℕ) (initial_x : Mat (k + 1)) (lr : ℝ)
    (use_armijo_rule : Bool) :
    (∀ i st st1, gd_iteration target gradf cholNaN elapsed fuel lr use_armijo_rule i st
        = some st1 →
      st1.loss_array = st.loss_array ++ [compute_loss_in_x target st.x_iter]) ∧
    (∀ x la ta, 0 < n_iters →
      optimize_factorization_grad_descent target gradf cholNaN elapsed fuel n_iters
        initial_x lr use_armijo_rule = some (x, la, ta) →
      la.head? = some (compute_loss_in_x target initial_x)) := by
  constructor
  · intro i st st1 hit
    obtain ⟨x1, _, hst1⟩ := gd_iteration_some target gradf cholNaN elapsed fuel lr
      use_armijo_rule i st st1 hit
    rw [hst1]
  · intro x la ta hn h
    obtain ⟨st, t0, rest, hloop, hta, hx, hla, hta2⟩ := optimize_some_inv target gradf
      cholNaN elapsed fuel n_iters initial_x lr use_armijo_rule x la ta h
    obtain ⟨tail, htail, hhead⟩ := gd_loop_loss_first target gradf cholNaN elapsed
      fuel lr use_armijo_rule n_iters 0 ⟨initial_x, [], []⟩ st hloop
    rw [hla, htail]
    simp only [List.nil_append]
    exact hhead hn

/-- Witness for C10: the concrete run's loss trajectory `[1]` starts with
the loss of the initial iterate. -/
theorem optimize_loss_pre_update_witness :
    [(1 : ℝ)].head? = some (compute_loss_in_x (1 : Mat 1) 1) :=
  (optimize_loss_pre_update (1 : Mat 1) (fun _ => 0) (fun _ => false)
    (fun j => (j : ℝ)) 0 1 1 1 false).2 1 [1] [0] one_pos concrete_driver_run

end DriverClaims

end DriverHelpers

end DPMatFac
